import Mathlib

/-
Verification of the MDP web-crawler solver (`src/MDP_Project/Web_Crawler.py`).

Shallow embedding conventions:
* States are an opaque type `S` with decidable equality (filenames in the
  original program).  The set `pages` is a duplicate-free list carrying the
  iteration order of the Python `for s in pages:` loops.
* Python dicts keyed by states (`V`, `policy`) become total functions updated
  with `Function.update`; the key set is tracked by the claims' hypotheses.
  The inner probability / reward dicts (`P[s][a]`, `R[s][a]`) become
  association lists in insertion order, built with `dinsert` (insert-or-update,
  exactly a Python dict assignment).
* `None`, used by the program both as the no-op sentinel action and as the
  initial value of `best_action`, is `Option.none`; actions are `Option S`.
* Python floats are modelled by `ℚ`.  On inputs that respect the documented
  contract every number the solver manipulates is finite, except for the
  `float('-inf')` used to initialise the action fold, which is modelled by
  an `Option ℚ` accumulator (`none` = `-inf`, and any finite value compares
  greater than it, as in IEEE arithmetic).  The float specials `-inf`/`nan`
  that escape into `V` on contract-violating inputs (a non-terminal state
  with an empty action list) are modelled faithfully by the separate type
  `Fl` and the `...F` copies of the solver at the end of the definitions.
* The unbounded `while True:` loops take a fuel argument; `none` means the
  loop has not exited within that many sweeps (the source imposes no cap and
  raises nothing, so the only observable outcomes are "returned a pair" or
  "still looping").
-/

namespace WebCrawler

universe u

variable {S : Type u} [DecidableEq S]

/-- Module-level default discount: `GAMMA = 0.97`. -/
def GAMMA : ℚ := 97/100

/-- Module-level default convergence threshold: `THRESHOLD = 1e-6`. -/
def THRESHOLD : ℚ := 1/1000000

/-- The flat action penalty: `ACTION_PENALTY = -0.05`. -/
def ACTION_PENALTY : ℚ := -(1/20)

/-- Python dict assignment `d[k] = v` on an association list: update the value
in place if the key is present (keeping its position), else append. -/
def dinsert (k : S) (v : ℚ) : List (S × ℚ) → List (S × ℚ)
  | [] => [(k, v)]
  | (k', v') :: rest => if k = k' then (k, v) :: rest else (k', v') :: dinsert k v rest

/-- Association-list lookup `d[k]` (first binding wins, as in a dict where
keys are unique). -/
def alookup (k : S) : List (S × ℚ) → Option ℚ
  | [] => none
  | (k', v) :: rest => if k = k' then some v else alookup k rest

/-- Sum of the probabilities of a distribution association list. -/
def psum (l : List (S × ℚ)) : ℚ := (l.map Prod.snd).sum

/-- Keys of an association list. -/
def akeys (l : List (S × ℚ)) : List S := l.map Prod.fst

/-- Function `crawl_mdp`, lines 29–39: the part of the crawler that decides which MDP
the builder sees.  The regex extraction from the HTML files is abstracted as
`raw`; the line embedded here is line 34,
`links[fn] = {l for l in out if l in pages}`, which keeps only links that are
themselves pages. -/
def crawl_links (pages : List S) (raw : S → List S) : S → List S :=
  fun fn => (raw fn).filter (fun l => decide (l ∈ pages))

/-- Function `build_mdp`, transition dict `P[s][a]` (lines 47–81).  Terminal pages and
dead ends get the deterministic self-loop `{s: 1.0}` under the `None` action;
a regular page's action `a` gets `0.90/0.10` (single outgoing link) or
`0.60/0.10/share` (several), written into the dict in the source's order.
For an action the source never stores (`a = none` on a regular page) the
function returns the empty list. -/
def buildP (links : S → List S) (tr : S → Option ℚ) (s : S) (a : Option S) :
    List (S × ℚ) :=
  match tr s with
  | some _ => [(s, 1)]
  | none =>
    let out := links s
    if out = [] then [(s, 1)]
    else
      match a with
      | none => []
      | some t =>
        let others := out.filter (fun x => decide (x ≠ t))
        if out.length = 1 then dinsert s (1/10) (dinsert t (9/10) [])
        else
          others.foldl (fun d s2 => dinsert s2 (3/10 / others.length) d)
            (dinsert s (1/10) (dinsert t (6/10) []))

/-- Function `build_mdp`, reward dict `R[s][a]` (lines 58, 65, 83): reward `0.0` on the
terminal / dead-end self-loop, `ACTION_PENALTY` on every key of `P[s][a]`
otherwise. -/
def buildR (links : S → List S) (tr : S → Option ℚ) (s : S) (a : Option S) :
    List (S × ℚ) :=
  match tr s with
  | some _ => [(s, 0)]
  | none =>
    if links s = [] then [(s, 0)]
    else (buildP links tr s a).map (fun pr => (pr.1, ACTION_PENALTY))

/-- Function `build_mdp`, action lists (lines 56, 63, 69–70): `[None]` for terminal and
dead-end pages, the outgoing links otherwise. -/
def buildActions (links : S → List S) (tr : S → Option ℚ) (s : S) :
    List (Option S) :=
  match tr s with
  | some _ => [none]
  | none => if links s = [] then [none] else (links s).map some

/-- The expected backed-up value of action `a` in state `s` (lines 107–111 and
the identical loops at 147–150 and 169–173):
`value = Σ_{s'} P[s][a][s'] * (R[s][a][s'] + γ * V[s'])`, accumulated over the
keys of `P[s][a]` in dict order. -/
def qval (P R : S → Option S → List (S × ℚ)) (γ : ℚ) (V : S → ℚ) (s : S)
    (a : Option S) : ℚ :=
  (P s a).foldl
    (fun acc pr => acc + pr.2 * ((alookup pr.1 (R s a)).getD 0 + γ * V pr.1)) 0

/-- The loop body of the maximising fold: `if value > max_value: ...`, where
an accumulator whose first component is `none` stands for `float('-inf')`
(any finite value compares greater than it, as in IEEE arithmetic). -/
def bestStep (f : Option S → ℚ) (mb : Option ℚ × Option S) (a : Option S) :
    Option ℚ × Option S :=
  let v := f a
  match mb with
  | (none, _) => (some v, a)
  | (some m, b) => if m < v then (some v, a) else (some m, b)

/-- The maximising fold shared by value iteration (lines 103–114) and the
policy-improvement step (lines 165–177):
`max_value = -inf; best_action = None; for a in as: if f a > max_value: ...`. -/
def bestQ (f : Option S → ℚ) (as : List (Option S)) : Option ℚ × Option S :=
  as.foldl (bestStep f) (none, none)

/-- The running maximum of `f` over `as` starting from `m`: what the strict
comparison fold of the source computes as `max_value` once it has seen a
first action. -/
def maxFold (f : Option S → ℚ) (m : ℚ) (as : List (Option S)) : ℚ :=
  as.foldl (fun m' x => max m' (f x)) m

/-- The mutable state of one solver run: the value dict, the policy dict and
the sweep's `delta`. -/
structure VIState (S : Type u) where
  V : S → ℚ
  policy : S → Option S
  delta : ℚ

/-- One iteration of the `for s in pages:` body of `value_iteration`
(lines 97–118): pin terminal states, otherwise take the best backed-up value,
update `delta` against the old `V[s]`, and write `V[s]` and `policy[s]`
in place. -/
def viStep (P R : S → Option S → List (S × ℚ)) (actions : S → List (Option S))
    (tr : S → Option ℚ) (γ : ℚ) (st : VIState S) (s : S) : VIState S :=
  match tr s with
  | some r =>
    { st with V := Function.update st.V s r,
              policy := Function.update st.policy s none }
  | none =>
    let best := bestQ (qval P R γ st.V s) (actions s)
    let newv := best.1.getD 0
    { V := Function.update st.V s newv,
      policy := Function.update st.policy s best.2,
      delta := max st.delta |st.V s - newv| }

/-- One full sweep of `value_iteration`'s outer loop (lines 96–118), starting
with `delta = 0`. -/
def viSweep (pages : List S) (P R : S → Option S → List (S × ℚ))
    (actions : S → List (Option S)) (tr : S → Option ℚ) (γ : ℚ)
    (V : S → ℚ) (policy : S → Option S) : VIState S :=
  pages.foldl (viStep P R actions tr γ) ⟨V, policy, 0⟩

/-- The `while True:` loop of `value_iteration` (lines 95–121), with fuel:
`none` means the loop has not exited within `fuel` sweeps (the source has no
iteration cap and raises no error, so it just keeps sweeping). -/
def viLoop (pages : List S) (P R : S → Option S → List (S × ℚ))
    (actions : S → List (Option S)) (tr : S → Option ℚ) (γ θ : ℚ) :
    ℕ → (S → ℚ) → (S → Option S) → Option ((S → ℚ) × (S → Option S))
  | 0, _, _ => none
  | fuel + 1, V, policy =>
    let st := viSweep pages P R actions tr γ V policy
    if st.delta < θ then some (st.V, st.policy)
    else viLoop pages P R actions tr γ θ fuel st.V st.policy

/-- Function `value_iteration` (lines 91–123): `V` starts at `0.0` on every page,
`policy` starts empty (modelled by the never-read `fun _ => none`). -/
def value_iteration (pages : List S) (P R : S → Option S → List (S × ℚ))
    (actions : S → List (Option S)) (tr : S → Option ℚ) (γ θ : ℚ)
    (fuel : ℕ) : Option ((S → ℚ) × (S → Option S)) :=
  viLoop pages P R actions tr γ θ fuel (fun _ => 0) (fun _ => none)

/-- The initialisation loop of `policy_iteration` (lines 126–134): terminal
states are pinned, every other page gets the first action of its list. -/
def piInit (pages : List S) (actions : S → List (Option S))
    (tr : S → Option ℚ) : (S → ℚ) × (S → Option S) :=
  pages.foldl
    (fun vp s =>
      match tr s with
      | some r => (Function.update vp.1 s r, Function.update vp.2 s none)
      | none => (vp.1, Function.update vp.2 s (actions s).headI))
    (fun _ => 0, fun _ => none)

/-- One iteration of the policy-evaluation body (lines 139–153): terminal
states are skipped, otherwise `V[s]` is recomputed for the fixed action
`policy[s]` and `delta` tracks the change. -/
def piEvalStep (P R : S → Option S → List (S × ℚ)) (tr : S → Option ℚ)
    (γ : ℚ) (policy : S → Option S) (st : (S → ℚ) × ℚ) (s : S) :
    (S → ℚ) × ℚ :=
  match tr s with
  | some _ => st
  | none =>
    let newv := qval P R γ st.1 s (policy s)
    (Function.update st.1 s newv, max st.2 |st.1 s - newv|)

/-- One full policy-evaluation sweep (lines 138–153), starting with
`delta = 0`. -/
def piEvalSweep (pages : List S) (P R : S → Option S → List (S × ℚ))
    (tr : S → Option ℚ) (γ : ℚ) (policy : S → Option S) (V : S → ℚ) :
    (S → ℚ) × ℚ :=
  pages.foldl (piEvalStep P R tr γ policy) (V, 0)

/-- The inner `while True:` evaluation loop (lines 137–156), with fuel. -/
def piEvalLoop (pages : List S) (P R : S → Option S → List (S × ℚ))
    (tr : S → Option ℚ) (γ θ : ℚ) (policy : S → Option S) :
    ℕ → (S → ℚ) → Option (S → ℚ)
  | 0, _ => none
  | fuel + 1, V =>
    let r := piEvalSweep pages P R tr γ policy V
    if r.2 < θ then some r.1
    else piEvalLoop pages P R tr γ θ policy fuel r.1

/-- One iteration of the policy-improvement body (lines 160–181): terminal
states are skipped, otherwise the maximising action replaces `policy[s]` and
`policy_stable` records whether it changed. -/
def piImproveStep (P R : S → Option S → List (S × ℚ))
    (actions : S → List (Option S)) (tr : S → Option ℚ) (γ : ℚ) (V : S → ℚ)
    (st : (S → Option S) × Bool) (s : S) : (S → Option S) × Bool :=
  match tr s with
  | some _ => st
  | none =>
    let best := bestQ (qval P R γ V s) (actions s)
    (Function.update st.1 s best.2, st.2 && decide (best.2 = st.1 s))

/-- One full policy-improvement pass (lines 158–181), starting with
`policy_stable = True`. -/
def piImprove (pages : List S) (P R : S → Option S → List (S × ℚ))
    (actions : S → List (Option S)) (tr : S → Option ℚ) (γ : ℚ) (V : S → ℚ)
    (policy : S → Option S) : (S → Option S) × Bool :=
  pages.foldl (piImproveStep P R actions tr γ V) (policy, true)

/-- The outer `while True:` loop of `policy_iteration` (lines 136–184):
evaluate the current policy to within `θ` (inner fuel), improve it, and stop
when it is stable. -/
def piLoop (pages : List S) (P R : S → Option S → List (S × ℚ))
    (actions : S → List (Option S)) (tr : S → Option ℚ) (γ θ : ℚ)
    (innerFuel : ℕ) :
    ℕ → (S → ℚ) → (S → Option S) → Option ((S → ℚ) × (S → Option S))
  | 0, _, _ => none
  | fuel + 1, V, policy =>
    match piEvalLoop pages P R tr γ θ policy innerFuel V with
    | none => none
    | some V' =>
      let ps := piImprove pages P R actions tr γ V' policy
      if ps.2 then some (V', ps.1)
      else piLoop pages P R actions tr γ θ innerFuel fuel V' ps.1

/-- Function `policy_iteration` (lines 125–186), with fuel for the outer and inner
loops. -/
def policy_iteration (pages : List S) (P R : S → Option S → List (S × ℚ))
    (actions : S → List (Option S)) (tr : S → Option ℚ) (γ θ : ℚ)
    (outerFuel innerFuel : ℕ) : Option ((S → ℚ) × (S → Option S)) :=
  let vp := piInit pages actions tr
  piLoop pages P R actions tr γ θ innerFuel outerFuel vp.1 vp.2

/-- Modelled from the spec (§4.2): a synchronous (Jacobi-style) sweep, in
which every state's Q-values are computed from the value function exactly as
it stood at the end of the previous sweep, never from values already updated
earlier in the same sweep.  Used only to compare the source's sweep against
the spec's wording. -/
def viSweepSyncSpec (pages : List S) (P R : S → Option S → List (S × ℚ))
    (actions : S → List (Option S)) (tr : S → Option ℚ) (γ : ℚ)
    (V : S → ℚ) : S → ℚ :=
  fun s =>
    if s ∈ pages then
      match tr s with
      | some r => r
      | none => (bestQ (qval P R γ V s) (actions s)).1.getD 0
    else V s

/-- Statement that `value_iteration` returns nothing at any sweep bound of the fueled model:
the source's `while True:` loop (which has no iteration cap and raises no
exception) never exits on this input. -/
def viNeverReturns (pages : List S) (P R : S → Option S → List (S × ℚ))
    (actions : S → List (Option S)) (tr : S → Option ℚ) (γ θ : ℚ) : Prop :=
  ∀ fuel, value_iteration pages P R actions tr γ θ fuel = none

/-- Well-formedness of a solver input, per §3/§6 of the spec: the page list is
a set (duplicate-free), every non-terminal page has at least one action, and
every action's transition row is a probability distribution (non-negative,
summing to `1`) whose successors are pages. -/
def WFmdp (pages : List S) (P : S → Option S → List (S × ℚ))
    (actions : S → List (Option S)) (tr : S → Option ℚ) : Prop :=
  pages.Nodup ∧
  (∀ s ∈ pages, tr s = none → actions s ≠ []) ∧
  (∀ s ∈ pages, ∀ a ∈ actions s,
    psum (P s a) = 1 ∧ ∀ pr ∈ P s a, 0 ≤ pr.2 ∧ pr.1 ∈ pages)

/-- The sweep trajectory of `value_iteration`: the solver state after `n`
full sweeps from the all-zero initialisation (with the `delta` recorded by
the `n`-th sweep). -/
def viTraj (pages : List S) (P R : S → Option S → List (S × ℚ))
    (actions : S → List (Option S)) (tr : S → Option ℚ) (γ : ℚ) :
    ℕ → VIState S
  | 0 => ⟨fun _ => 0, fun _ => none, 0⟩
  | n + 1 =>
    viSweep pages P R actions tr γ (viTraj pages P R actions tr γ n).V
      (viTraj pages P R actions tr γ n).policy

/-! ### Python floats with IEEE special values

On inputs violating the documented contract (a non-terminal state with an
empty action list) the source lets `float('-inf')` escape into `V`, after
which `-inf - -inf = nan` also appears in the `delta` computation.  `Fl`
models exactly the float operations the solver uses — `+`, `-`, `*`, `abs`,
`<` and Python's two-argument `max` — with IEEE semantics on the specials and
exact rationals for finite values. -/

inductive Fl : Type where
  | num : ℚ → Fl
  | inf : Fl
  | ninf : Fl
  | nan : Fl
deriving DecidableEq

namespace Fl

def neg : Fl → Fl
  | num a => num (-a)
  | inf => ninf
  | ninf => inf
  | nan => nan

def add : Fl → Fl → Fl
  | nan, _ => nan
  | _, nan => nan
  | num a, num b => num (a + b)
  | num _, inf => inf
  | num _, ninf => ninf
  | inf, num _ => inf
  | ninf, num _ => ninf
  | inf, inf => inf
  | ninf, ninf => ninf
  | inf, ninf => nan
  | ninf, inf => nan

/-- IEEE subtraction agrees with adding the negation in every case the solver
can reach. -/
def sub (a b : Fl) : Fl := a.add b.neg

def mul : Fl → Fl → Fl
  | nan, _ => nan
  | _, nan => nan
  | num a, num b => num (a * b)
  | num a, inf => if 0 < a then inf else if a < 0 then ninf else nan
  | num a, ninf => if 0 < a then ninf else if a < 0 then inf else nan
  | inf, num b => if 0 < b then inf else if b < 0 then ninf else nan
  | ninf, num b => if 0 < b then ninf else if b < 0 then inf else nan
  | inf, inf => inf
  | inf, ninf => ninf
  | ninf, inf => ninf
  | ninf, ninf => inf

def fabs : Fl → Fl
  | num a => num |a|
  | inf => inf
  | ninf => inf
  | nan => nan

/-- IEEE `<`: every comparison involving `nan` is false. -/
def flt : Fl → Fl → Bool
  | nan, _ => false
  | _, nan => false
  | num a, num b => decide (a < b)
  | num _, inf => true
  | num _, ninf => false
  | inf, _ => false
  | ninf, ninf => false
  | ninf, _ => true

/-- Python's two-argument `max`: keeps the first argument unless the second
compares strictly greater (so `max(d, nan) = d`). -/
def pymax (a b : Fl) : Fl := if flt a b then b else a

end Fl

/-- The solver state with float-special values. -/
structure VIStateF (S : Type u) where
  V : S → Fl
  policy : S → Option S
  delta : Fl

/-- Function `qval` over `Fl`: the same accumulation as lines 107–111, with the stored
probabilities and rewards (always finite) injected via `Fl.num`. -/
def qvalF (P R : S → Option S → List (S × ℚ)) (γ : ℚ) (V : S → Fl) (s : S)
    (a : Option S) : Fl :=
  (P s a).foldl
    (fun acc pr => acc.add ((Fl.num pr.2).mul
      ((Fl.num ((alookup pr.1 (R s a)).getD 0)).add ((Fl.num γ).mul (V pr.1)))))
    (Fl.num 0)

/-- Function `viStep` over `Fl` (lines 97–118): here `float('-inf')` is a value, so the
maximising fold starts directly from `(ninf, None)` and `V[s] = max_value` can
record `-inf` when the action list is empty. -/
def viStepF (P R : S → Option S → List (S × ℚ)) (actions : S → List (Option S))
    (tr : S → Option ℚ) (γ : ℚ) (st : VIStateF S) (s : S) : VIStateF S :=
  match tr s with
  | some r =>
    { st with V := Function.update st.V s (Fl.num r),
              policy := Function.update st.policy s none }
  | none =>
    let best := (actions s).foldl
      (fun mb a =>
        let v := qvalF P R γ st.V s a
        if Fl.flt mb.1 v then (v, a) else mb)
      (Fl.ninf, none)
    { V := Function.update st.V s best.1,
      policy := Function.update st.policy s best.2,
      delta := Fl.pymax st.delta ((st.V s).sub best.1).fabs }

/-- One full sweep over `Fl`, starting from `delta = 0`. -/
def viSweepF (pages : List S) (P R : S → Option S → List (S × ℚ))
    (actions : S → List (Option S)) (tr : S → Option ℚ) (γ : ℚ)
    (V : S → Fl) (policy : S → Option S) : VIStateF S :=
  pages.foldl (viStepF P R actions tr γ) ⟨V, policy, Fl.num 0⟩

/-- The `while True:` loop over `Fl`, with fuel. -/
def viLoopF (pages : List S) (P R : S → Option S → List (S × ℚ))
    (actions : S → List (Option S)) (tr : S → Option ℚ) (γ θ : ℚ) :
    ℕ → (S → Fl) → (S → Option S) → Option ((S → Fl) × (S → Option S))
  | 0, _, _ => none
  | fuel + 1, V, policy =>
    let st := viSweepF pages P R actions tr γ V policy
    if Fl.flt st.delta (Fl.num θ) then some (st.V, st.policy)
    else viLoopF pages P R actions tr γ θ fuel st.V st.policy

/-- Function `value_iteration` over `Fl`. -/
def value_iterationF (pages : List S) (P R : S → Option S → List (S × ℚ))
    (actions : S → List (Option S)) (tr : S → Option ℚ) (γ θ : ℚ)
    (fuel : ℕ) : Option ((S → Fl) × (S → Option S)) :=
  viLoopF pages P R actions tr γ θ fuel (fun _ => Fl.num 0) (fun _ => none)

/-- Non-termination of the `Fl` model at every sweep bound. -/
def viNeverReturnsF (pages : List S) (P R : S → Option S → List (S × ℚ))
    (actions : S → List (Option S)) (tr : S → Option ℚ) (γ θ : ℚ) : Prop :=
  ∀ fuel, value_iterationF pages P R actions tr γ θ fuel = none

/-! ### Concrete inputs used by counterexamples and witnesses -/

/-- C9's counterexample input: page `0` is non-terminal with an *empty* action
list (violating the input contract), page `1` is a rewarding self-loop run
with `γ = 1`, so the run never converges and never returns. -/
def c9pages : List ℕ := [0, 1]

def c9P : ℕ → Option ℕ → List (ℕ × ℚ) := fun s _ => if s = 1 then [(1, 1)] else []

def c9R : ℕ → Option ℕ → List (ℕ × ℚ) := fun s _ => if s = 1 then [(1, 1)] else []

def c9actions : ℕ → List (Option ℕ) := fun s => if s = 1 then [some 1] else []

def c9tr : ℕ → Option ℚ := fun _ => none

/-- C9's witness input: a single non-terminal page with an empty action list
and nothing else. -/
def c9wpages : List ℕ := [0]

def c9wP : ℕ → Option ℕ → List (ℕ × ℚ) := fun _ _ => []

def c9wactions : ℕ → List (Option ℕ) := fun _ => []

/-- C7's witness input: one non-terminal page with a single self-loop of
probability `1` and reward `0`, solved with `γ = 1/2`. -/
def c7pages : List ℕ := [0]

def c7P : ℕ → Option ℕ → List (ℕ × ℚ) := fun _ _ => [(0, 1)]

def c7R : ℕ → Option ℕ → List (ℕ × ℚ) := fun _ _ => [(0, 0)]

def c7actions : ℕ → List (Option ℕ) := fun _ => [some 0]

/-- Sweep order for C1's counterexample: the terminal page `1` is processed
before page `0`, whose backup then reads the freshly pinned value. -/
def c1pages : List ℕ := [1, 0]

/-- One non-terminal page with a single self-loop action of reward `1`:
with `γ = 1` every sweep increases `V(0)` by `1` and `Δ = 1` forever. -/
def c3pages : List ℕ := [0]

def c3P : ℕ → Option ℕ → List (ℕ × ℚ) := fun _ _ => [(0, 1)]

def c3R : ℕ → Option ℕ → List (ℕ × ℚ) := fun _ _ => [(0, 1)]

def c3actions : ℕ → List (Option ℕ) := fun _ => [some 0]

def c3tr : ℕ → Option ℚ := fun _ => none

/-- A Q-function with a tie: the sentinel scores `1`, both real actions score
`2`, so the first of the two tied actions must win. -/
def c6f : Option ℕ → ℚ :=
  fun a => match a with
  | none => 1
  | some _ => 2

/-- Pages of the two-page instance behind C4's counterexample: page `0` is a
regular page whose only link is page `1`; page `1` is terminal with reward
`10`.  The sweep order processes `0` before the terminal page. -/
def c4pages : List ℕ := [0, 1]

def c4links : ℕ → List ℕ := fun s => if s = 0 then [1] else []

def c4tr : ℕ → Option ℚ := fun s => if s = 1 then some 10 else none

/-- A page whose link set contains the page itself (a self-link), the input
on which `build_mdp` loses probability mass. -/
def c2links : ℕ → List ℕ := fun s => if s = 0 then [0] else []

def c2tr : ℕ → Option ℚ := fun _ => none

/-- A single dead-end page: non-terminal and without outgoing links. -/
def c8pages : List ℕ := [0]

def c8links : ℕ → List ℕ := fun _ => []

def c8tr : ℕ → Option ℚ := fun _ => none

/-- Raw (pre-filter) link-extraction results for the C10 witness: page `0`
mentions page `1` and a non-page `5`. -/
def c10pages : List ℕ := [0, 1]

def c10raw : ℕ → List ℕ := fun s => if s = 0 then [1, 5] else []

def c10tr : ℕ → Option ℚ := fun _ => none

/-! ### Generic fold invariants -/

lemma foldl_preserve {α : Type*} {β : Type*} (step : β → α → β) (Q : β → Prop)
    (l : List α) (hpres : ∀ st a, a ∈ l → Q st → Q (step st a)) :
    ∀ st, Q st → Q (l.foldl step st) := by
  induction l with
  | nil => exact fun st h => h
  | cons x xs ih =>
    intro st h
    exact ih (fun st a ha => hpres st a (List.mem_cons_of_mem _ ha)) _
      (hpres st x (List.mem_cons_self _ _) h)

lemma foldl_establish {α : Type*} {β : Type*} (step : β → α → β) (Q : β → Prop)
    (l : List α) (x : α) (hx : x ∈ l)
    (hest : ∀ st, Q (step st x))
    (hpres : ∀ st a, a ∈ l → Q st → Q (step st a)) :
    ∀ st, Q (l.foldl step st) := by
  induction l with
  | nil => cases hx
  | cons y ys ih =>
    intro st
    rcases List.mem_cons.1 hx with h | h
    · subst h
      exact foldl_preserve step Q ys
        (fun st a ha => hpres st a (List.mem_cons_of_mem _ ha)) _ (hest st)
    · exact ih h (fun st a ha => hpres st a (List.mem_cons_of_mem _ ha)) _

/-! ### Locality and monotonicity of the value-iteration sweep -/

variable (P R : S → Option S → List (S × ℚ)) (actions : S → List (Option S))
  (tr : S → Option ℚ)

lemma viStep_V_ne {γ : ℚ} {st : VIState S} {s u : S} (hne : u ≠ s) :
    (viStep P R actions tr γ st s).V u = st.V u := by
  rcases h : tr s with _ | r <;>
    simp [viStep, h, Function.update_noteq hne]

lemma viStep_policy_ne {γ : ℚ} {st : VIState S} {s u : S} (hne : u ≠ s) :
    (viStep P R actions tr γ st s).policy u = st.policy u := by
  rcases h : tr s with _ | r <;>
    simp [viStep, h, Function.update_noteq hne]

lemma viStep_delta_le {γ : ℚ} (st : VIState S) (s : S) :
    st.delta ≤ (viStep P R actions tr γ st s).delta := by
  rcases h : tr s with _ | r
  · simp [viStep, h]
  · simp [viStep, h]

lemma fold_no_write {γ : ℚ} :
    ∀ (l : List S) (st : VIState S) (u : S), u ∉ l →
      (l.foldl (viStep P R actions tr γ) st).V u = st.V u ∧
      (l.foldl (viStep P R actions tr γ) st).policy u = st.policy u := by
  intro l
  induction l with
  | nil => intro st u _; exact ⟨rfl, rfl⟩
  | cons x xs ih =>
    intro st u hu
    have hux : u ≠ x := fun h => hu (h ▸ List.mem_cons_self x xs)
    have hrest : u ∉ xs := fun h => hu (List.mem_cons_of_mem _ h)
    rcases ih (viStep P R actions tr γ st x) u hrest with ⟨h1, h2⟩
    exact ⟨h1.trans (viStep_V_ne P R actions tr hux),
      h2.trans (viStep_policy_ne P R actions tr hux)⟩

lemma fold_delta_le {γ : ℚ} :
    ∀ (l : List S) (st : VIState S),
      st.delta ≤ (l.foldl (viStep P R actions tr γ) st).delta := by
  intro l
  induction l with
  | nil => intro st; exact le_rfl
  | cons x xs ih =>
    intro st
    exact (viStep_delta_le P R actions tr st x).trans (ih _)

lemma fold_delta_nonneg {γ : ℚ} (l : List S) (V : S → ℚ)
    (policy : S → Option S) :
    0 ≤ (l.foldl (viStep P R actions tr γ) ⟨V, policy, 0⟩).delta :=
  fold_delta_le P R actions tr l ⟨V, policy, 0⟩

/-! ### Terminal pinning (shared by several claims) -/

lemma viStep_pin {γ : ℚ} {s : S} {r : ℚ} (htr : tr s = some r)
    (st : VIState S) :
    (viStep P R actions tr γ st s).V s = r ∧
    (viStep P R actions tr γ st s).policy s = none := by
  simp [viStep, htr]

lemma viStep_preserve_pin {γ : ℚ} {s : S} {r : ℚ} (htr : tr s = some r)
    (st : VIState S) (a : S)
    (h : st.V s = r ∧ st.policy s = none) :
    (viStep P R actions tr γ st a).V s = r ∧
    (viStep P R actions tr γ st a).policy s = none := by
  by_cases has : s = a
  · subst has; exact viStep_pin P R actions tr htr st
  · exact ⟨(viStep_V_ne P R actions tr has).trans h.1,
      (viStep_policy_ne P R actions tr has).trans h.2⟩

lemma viSweep_pin {γ : ℚ} (pages : List S) {s : S} {r : ℚ}
    (hmem : s ∈ pages) (htr : tr s = some r) (V : S → ℚ)
    (policy : S → Option S) :
    (viSweep pages P R actions tr γ V policy).V s = r ∧
    (viSweep pages P R actions tr γ V policy).policy s = none := by
  exact foldl_establish _ (fun st => st.V s = r ∧ st.policy s = none)
    pages s hmem (fun st => viStep_pin P R actions tr htr st)
    (fun st a _ h => viStep_preserve_pin P R actions tr htr st a h) _

lemma viLoop_pin {γ θ : ℚ} (pages : List S) {s : S} {r : ℚ}
    (hmem : s ∈ pages) (htr : tr s = some r) :
    ∀ (fuel : ℕ) (V : S → ℚ) (policy : S → Option S)
      (res : (S → ℚ) × (S → Option S)),
      viLoop pages P R actions tr γ θ fuel V policy = some res →
      res.1 s = r ∧ res.2 s = none := by
  intro fuel
  induction fuel with
  | zero => intro V p res h; cases h
  | succ n ih =>
    intro V p res h
    rw [viLoop] at h
    by_cases hδ : (viSweep pages P R actions tr γ V p).delta < θ
    · simp only [hδ, if_true] at h
      rcases viSweep_pin P R actions tr pages hmem htr V p with ⟨h1, h2⟩
      cases h
      exact ⟨h1, h2⟩
    · simp only [hδ, if_false] at h
      exact ih _ _ _ h

/-! ### Terminal pinning through policy iteration -/

lemma piInit_pin (pages : List S) {s : S} {r : ℚ}
    (hmem : s ∈ pages) (htr : tr s = some r) :
    (piInit pages actions tr).1 s = r ∧ (piInit pages actions tr).2 s = none := by
  refine foldl_establish _
    (fun vp : (S → ℚ) × (S → Option S) => vp.1 s = r ∧ vp.2 s = none)
    pages s hmem ?_ ?_ _
  · intro vp; simp [htr]
  · intro vp a _ h
    by_cases has : s = a
    · subst has; simp [htr]
    · rcases ha : tr a with _ | r'
      · simpa [ha, Function.update_noteq has] using h
      · simpa [ha, Function.update_noteq has] using h

lemma piEvalStep_preserve {γ : ℚ} {s : S} {r : ℚ} (htr : tr s = some r)
    (policy : S → Option S) (st : (S → ℚ) × ℚ) (a : S) :
    (piEvalStep P R tr γ policy st a).1 s = st.1 s := by
  by_cases has : s = a
  · subst has; simp [piEvalStep, htr]
  · rcases ha : tr a with _ | r'
    · simp [piEvalStep, ha, Function.update_noteq has]
    · simp [piEvalStep, ha]

lemma piEvalSweep_preserve {γ : ℚ} (pages : List S) {s : S} {r : ℚ}
    (htr : tr s = some r) (policy : S → Option S) (V : S → ℚ) :
    (piEvalSweep pages P R tr γ policy V).1 s = V s := by
  refine foldl_preserve _ (fun st : (S → ℚ) × ℚ => st.1 s = V s) pages ?_ _ rfl
  intro st a _ h
  exact (piEvalStep_preserve P R tr htr policy st a).trans h

lemma piEvalLoop_pin {γ θ : ℚ} (pages : List S) {s : S} {r : ℚ}
    (htr : tr s = some r) (policy : S → Option S) :
    ∀ (fuel : ℕ) (V V' : S → ℚ), V s = r →
      piEvalLoop pages P R tr γ θ policy fuel V = some V' → V' s = r := by
  intro fuel
  induction fuel with
  | zero => intro V V' _ h; cases h
  | succ n ih =>
    intro V V' hV h
    rw [piEvalLoop] at h
    by_cases hδ : (piEvalSweep pages P R tr γ policy V).2 < θ
    · simp only [hδ, if_true] at h
      cases h
      exact (piEvalSweep_preserve P R tr pages htr policy V).trans hV
    · simp only [hδ, if_false] at h
      exact ih _ _ ((piEvalSweep_preserve P R tr pages htr policy V).trans hV) h

lemma piImprove_preserve {γ : ℚ} (pages : List S) {s : S} {r : ℚ}
    (htr : tr s = some r) (V : S → ℚ) (policy : S → Option S) :
    (piImprove pages P R actions tr γ V policy).1 s = policy s := by
  refine foldl_preserve _ (fun st : (S → Option S) × Bool => st.1 s = policy s)
    pages ?_ _ rfl
  intro st a _ h
  by_cases has : s = a
  · subst has; simpa [piImproveStep, htr] using h
  · rcases ha : tr a with _ | r'
    · simpa [piImproveStep, ha, Function.update_noteq has] using h
    · simpa [piImproveStep, ha] using h

lemma piLoop_pin {γ θ : ℚ} (pages : List S) {s : S} {r : ℚ}
    (htr : tr s = some r) (innerFuel : ℕ) :
    ∀ (fuel : ℕ) (V : S → ℚ) (policy : S → Option S)
      (res : (S → ℚ) × (S → Option S)),
      V s = r → policy s = none →
      piLoop pages P R actions tr γ θ innerFuel fuel V policy = some res →
      res.1 s = r ∧ res.2 s = none := by
  intro fuel
  induction fuel with
  | zero => intro V p res _ _ h; cases h
  | succ n ih =>
    intro V p res hV hp h
    rw [piLoop] at h
    rcases he : piEvalLoop pages P R tr γ θ p innerFuel V with _ | V'
    · rw [he] at h; cases h
    · rw [he] at h
      have hV' : V' s = r := piEvalLoop_pin P R tr pages htr p innerFuel V V' hV he
      have hp' : (piImprove pages P R actions tr γ V' p).1 s = none :=
        (piImprove_preserve P R actions tr pages htr V' p).trans hp
      by_cases hs : (piImprove pages P R actions tr γ V' p).2 = true
      · simp only [hs, if_true] at h
        cases h
        exact ⟨hV', hp'⟩
      · simp only [hs, if_false] at h
        exact ih _ _ _ hV' hp' h

/-! ### Claim C4: terminal pinning -/

/-- Claim C4, counterexample: the claim says `V(s)` equals the terminal reward
"at every point during and after any number of sweeps" of either engine.  In
`value_iteration`, `V` is initialised to `0.0` on every page, and during the
first sweep a terminal state's value is still `0` until its own pinning
assignment runs.  On `c4pages` (order `[0, 1]`, page `1` terminal with reward
`10`), after the first sweep has processed page `0` — a point during sweep 1 —
`V(1)` is `0`, not `10`; page `0`'s backup therefore read `V(1) = 0`. -/
theorem c4_counterexample :
    (List.foldl
        (viStep (buildP c4links c4tr) (buildR c4links c4tr)
          (buildActions c4links c4tr) c4tr (1/2))
        ⟨fun _ => 0, fun _ => none, 0⟩ [0]).V 1 = 0 ∧
    c4tr 1 = some 10 ∧ (0 : ℚ) ≠ 10 := by
  refine ⟨?_, rfl, by norm_num⟩
  norm_num [viStep, c4tr, bestQ, bestStep, qval, buildP, buildR, buildActions,
    c4links, alookup, dinsert, Function.update_apply]

/-- Claim C4, amended: terminal pinning holds after every completed sweep of
`value_iteration` (and in any returned result), and at every point of
`policy_iteration` from its initialisation on; terminal states are never
updated by a Bellman backup (value-iteration sweeps assign them exactly their
terminal reward, policy-evaluation sweeps and improvement passes skip them).
However `value_iteration` initialises `V` to `0`, so *during* its first sweep
a terminal state's value is `0` until its pinning assignment runs (see
`c4_counterexample`). -/
theorem c4_terminal_pinning (pages : List S)
    (P R : S → Option S → List (S × ℚ)) (actions : S → List (Option S))
    (tr : S → Option ℚ) (γ θ : ℚ) (s : S) (r : ℚ)
    (hmem : s ∈ pages) (htr : tr s = some r) :
    (∀ V policy, (viSweep pages P R actions tr γ V policy).V s = r ∧
        (viSweep pages P R actions tr γ V policy).policy s = none) ∧
    (∀ fuel res, value_iteration pages P R actions tr γ θ fuel = some res →
        res.1 s = r ∧ res.2 s = none) ∧
    ((piInit pages actions tr).1 s = r ∧ (piInit pages actions tr).2 s = none) ∧
    (∀ policy V, (piEvalSweep pages P R tr γ policy V).1 s = V s) ∧
    (∀ V policy, (piImprove pages P R actions tr γ V policy).1 s = policy s) ∧
    (∀ fo fi res, policy_iteration pages P R actions tr γ θ fo fi = some res →
        res.1 s = r ∧ res.2 s = none) := by
  refine ⟨fun V policy => viSweep_pin P R actions tr pages hmem htr V policy,
    fun fuel res h => viLoop_pin P R actions tr pages hmem htr fuel _ _ res h,
    piInit_pin actions tr pages hmem htr,
    fun policy V => piEvalSweep_preserve P R tr pages htr policy V,
    fun V policy => piImprove_preserve P R actions tr pages htr V policy,
    fun fo fi res h => ?_⟩
  rcases piInit_pin actions tr pages hmem htr with ⟨h1, h2⟩
  exact piLoop_pin P R actions tr pages htr fi fo _ _ res h1 h2 h

/-- Witness for `c4_terminal_pinning` at the concrete two-page instance. -/
theorem c4_terminal_pinning_witness :
    ((1 : ℕ) ∈ c4pages ∧ c4tr 1 = some 10) ∧
    ((piInit c4pages (buildActions c4links c4tr) c4tr).1 1 = 10 ∧
      (piInit c4pages (buildActions c4links c4tr) c4tr).2 1 = none) :=
  ⟨⟨by decide, rfl⟩,
    (c4_terminal_pinning c4pages (buildP c4links c4tr) (buildR c4links c4tr)
      (buildActions c4links c4tr) c4tr (1/2) (1/1000) 1 10
      (by decide) rfl).2.2.1⟩

/-! ### Claim C2: the self-link distribution bug in `build_mdp` -/

/-- Claim C2: on a page whose link set contains the page itself, the tuple
assignment `dist[a], dist[s] = 0.90, 0.10` collapses onto a single dict key
(`a = s`), so the stored distribution is `{s: 0.1}` and its probabilities sum
to `0.1`, not `1.0`.  This evaluates `build_mdp` at that failing input. -/
theorem c2_self_link_distribution :
    buildActions c2links c2tr 0 = [some 0] ∧
    buildP c2links c2tr 0 (some 0) = [(0, 1/10)] ∧
    psum (buildP c2links c2tr 0 (some 0)) = 1/10 ∧
    (1/10 : ℚ) ≠ 1 := by
  exact ⟨rfl, rfl, by norm_num [psum, buildP, c2links, c2tr, dinsert],
    by norm_num⟩

/-! ### Claim C8: dead-end pages -/

lemma dead_end_step (links : S → List S) (tr : S → Option ℚ) (γ : ℚ)
    {s : S} (htr : tr s = none) (hlk : links s = []) (st : VIState S) (a : S)
    (h : st.V s = 0 ∧ st.policy s = none) :
    (viStep (buildP links tr) (buildR links tr) (buildActions links tr) tr γ
        st a).V s = 0 ∧
    (viStep (buildP links tr) (buildR links tr) (buildActions links tr) tr γ
        st a).policy s = none := by
  by_cases has : s = a
  · subst has
    simp [viStep, htr, bestQ, bestStep, qval, buildP, buildR, buildActions,
      hlk, alookup, h.1]
  · exact ⟨(viStep_V_ne _ _ _ tr has).trans h.1,
      (viStep_policy_ne _ _ _ tr has).trans h.2⟩

lemma dead_end_loop (pages : List S) (links : S → List S) (tr : S → Option ℚ)
    (γ θ : ℚ) {s : S} (htr : tr s = none) (hlk : links s = []) :
    ∀ (fuel : ℕ) (V : S → ℚ) (policy : S → Option S)
      (res : (S → ℚ) × (S → Option S)),
      V s = 0 → policy s = none →
      viLoop pages (buildP links tr) (buildR links tr) (buildActions links tr)
        tr γ θ fuel V policy = some res →
      res.1 s = 0 ∧ res.2 s = none := by
  intro fuel
  induction fuel with
  | zero => intro V p res _ _ h; cases h
  | succ n ih =>
    intro V p res hV hp h
    have hsw : (viSweep pages (buildP links tr) (buildR links tr)
        (buildActions links tr) tr γ V p).V s = 0 ∧
        (viSweep pages (buildP links tr) (buildR links tr)
          (buildActions links tr) tr γ V p).policy s = none := by
      exact foldl_preserve _ (fun st : VIState S => st.V s = 0 ∧ st.policy s = none)
        pages (fun st a _ hq => dead_end_step links tr γ htr hlk st a hq) _ ⟨hV, hp⟩
    rw [viLoop] at h
    by_cases hδ : (viSweep pages (buildP links tr) (buildR links tr)
        (buildActions links tr) tr γ V p).delta < θ
    · simp only [hδ, if_true] at h
      cases h
      exact hsw
    · simp only [hδ, if_false] at h
      exact ih _ _ _ hsw.1 hsw.2 h

/-- Claim C8: a non-terminal page with no outgoing links gets the single no-op
action with a deterministic self-loop of probability `1` and reward `0` from
`build_mdp`, and whenever `value_iteration` returns on the built MDP, the
returned value of that page is exactly `0` (for every `γ`) and its policy
entry is the no-op sentinel. -/
theorem c8_dead_end (pages : List S) (links : S → List S) (tr : S → Option ℚ)
    (γ θ : ℚ) (s : S) (hmem : s ∈ pages) (htr : tr s = none)
    (hlk : links s = []) :
    buildActions links tr s = [none] ∧
    buildP links tr s none = [(s, 1)] ∧
    buildR links tr s none = [(s, 0)] ∧
    ∀ fuel res, value_iteration pages (buildP links tr) (buildR links tr)
        (buildActions links tr) tr γ θ fuel = some res →
      res.1 s = 0 ∧ res.2 s = none := by
  refine ⟨by simp [buildActions, htr, hlk], by simp [buildP, htr, hlk],
    by simp [buildR, htr, hlk], ?_⟩
  intro fuel res h
  exact dead_end_loop pages links tr γ θ htr hlk fuel _ _ res rfl rfl h

/-- Witness for `c8_dead_end`: on the one-page dead-end corpus the solver
returns after one sweep and indeed yields `V = 0` and the no-op policy. -/
theorem c8_dead_end_witness :
    (0 : ℕ) ∈ c8pages ∧ c8tr 0 = none ∧ c8links 0 = [] ∧
    ((value_iteration c8pages (buildP c8links c8tr) (buildR c8links c8tr)
        (buildActions c8links c8tr) c8tr (1/2) (1/1000) 1).map
      (fun res => (res.1 0, res.2 0))) = some (0, none) := by
  refine ⟨by decide, rfl, rfl, ?_⟩
  have hs : (value_iteration c8pages (buildP c8links c8tr) (buildR c8links c8tr)
      (buildActions c8links c8tr) c8tr (1/2) (1/1000) 1).isSome = true := by
    norm_num [value_iteration, viLoop, viSweep, viStep, bestQ, bestStep, qval,
      buildP, buildR, buildActions, alookup, c8pages, c8links, c8tr]
  rcases hres : value_iteration c8pages (buildP c8links c8tr)
      (buildR c8links c8tr) (buildActions c8links c8tr) c8tr (1/2) (1/1000) 1
    with _ | res
  · rw [hres] at hs; cases hs
  · have hsp := (c8_dead_end c8pages c8links c8tr (1/2) (1/1000) 0 (by decide)
      rfl rfl).2.2.2 1 res hres
    simp [hsp.1, hsp.2]

/-! ### Claim C10: successor closure of the crawled MDP -/

lemma dinsert_mem {k : S} {v : ℚ} :
    ∀ (l : List (S × ℚ)) (pr : S × ℚ), pr ∈ dinsert k v l →
      pr.1 = k ∨ pr ∈ l := by
  intro l
  induction l with
  | nil =>
    intro pr hpr
    rcases List.mem_singleton.1 hpr with rfl
    exact Or.inl rfl
  | cons x xs ih =>
    rcases x with ⟨k', v'⟩
    intro pr hpr
    by_cases hk : k = k'
    · rw [dinsert, if_pos hk] at hpr
      rcases List.mem_cons.1 hpr with rfl | hpr
      · exact Or.inl rfl
      · exact Or.inr (List.mem_cons_of_mem _ hpr)
    · rw [dinsert, if_neg hk] at hpr
      rcases List.mem_cons.1 hpr with rfl | hpr
      · exact Or.inr (List.mem_cons_self _ _)
      · rcases ih pr hpr with h | h
        · exact Or.inl h
        · exact Or.inr (List.mem_cons_of_mem _ h)

lemma fold_dinsert_mem (c : ℚ) :
    ∀ (others : List S) (d : List (S × ℚ)) (pr : S × ℚ),
      pr ∈ others.foldl (fun d s2 => dinsert s2 c d) d →
      pr.1 ∈ others ∨ pr ∈ d := by
  intro others
  induction others with
  | nil => intro d pr hpr; exact Or.inr hpr
  | cons x xs ih =>
    intro d pr hpr
    rcases ih _ pr hpr with h | h
    · exact Or.inl (List.mem_cons_of_mem _ h)
    · rcases dinsert_mem _ pr h with h | h
      · exact Or.inl (h ▸ List.mem_cons_self _ _)
      · exact Or.inr h

lemma buildP_keys (links : S → List S) (tr : S → Option ℚ) (s : S)
    (a : Option S) (ha : a ∈ buildActions links tr s) :
    ∀ pr ∈ buildP links tr s a, pr.1 = s ∨ pr.1 ∈ links s := by
  intro pr hpr
  rcases htr : tr s with _ | r
  · by_cases hlk : links s = []
    · simp only [buildP, htr, hlk, if_pos rfl] at hpr
      rcases List.mem_singleton.1 hpr with rfl
      exact Or.inl rfl
    · have ha' : a ∈ List.map some (links s) := by
        simpa [buildActions, htr, hlk] using ha
      rcases List.mem_map.1 ha' with ⟨t, htl, rfl⟩
      simp only [buildP, htr, if_neg hlk] at hpr
      by_cases hlen : (links s).length = 1
      · rw [if_pos hlen] at hpr
        rcases dinsert_mem _ pr hpr with h | h
        · exact Or.inl h
        · rcases dinsert_mem _ pr h with h | h
          · exact Or.inr (h ▸ htl)
          · cases h
      · rw [if_neg hlen] at hpr
        rcases fold_dinsert_mem _ _ _ pr hpr with h | h
        · exact Or.inr (List.mem_of_mem_filter h)
        · rcases dinsert_mem _ pr h with h | h
          · exact Or.inl h
          · rcases dinsert_mem _ pr h with h | h
            · exact Or.inr (h ▸ htl)
            · cases h
  · simp only [buildP, htr] at hpr
    rcases List.mem_singleton.1 hpr with rfl
    exact Or.inl rfl

lemma akeys_map_const (c : ℚ) :
    ∀ l : List (S × ℚ), akeys (l.map (fun pr => (pr.1, c))) = akeys l := by
  intro l
  induction l with
  | nil => rfl
  | cons x xs ih => simpa [akeys] using congrArg (List.cons x.1) ih

/-- Claim C10: for an MDP produced by `crawl_mdp` (whose link sets are filtered
to contain only pages) followed by `build_mdp`, every successor key of
`P[s][a]` is itself a page, and `R[s][a]` has exactly the same key list as
`P[s][a]`; hence every lookup `V[s']` (whose key set is `pages`) and
`R[s][a][s']` performed by either engine is defined. -/
theorem c10_successor_closure (pages : List S) (raw : S → List S)
    (tr : S → Option ℚ) (s : S) (a : Option S) (hmem : s ∈ pages)
    (ha : a ∈ buildActions (crawl_links pages raw) tr s) :
    (∀ pr ∈ buildP (crawl_links pages raw) tr s a, pr.1 ∈ pages) ∧
    akeys (buildR (crawl_links pages raw) tr s a) =
      akeys (buildP (crawl_links pages raw) tr s a) := by
  constructor
  · intro pr hpr
    rcases buildP_keys (crawl_links pages raw) tr s a ha pr hpr with h | h
    · exact h ▸ hmem
    · rcases List.mem_filter.1 h with ⟨_, hdec⟩
      exact of_decide_eq_true hdec
  · rcases htr : tr s with _ | r
    · by_cases hlk : crawl_links pages raw s = []
      · simp [buildR, buildP, htr, hlk, akeys]
      · simp only [buildR, buildP, htr, if_neg hlk]
        exact akeys_map_const _ _
    · simp [buildR, buildP, htr, akeys]

/-- Witness for `c10_successor_closure` at a concrete two-page corpus whose
raw links mention a non-page. -/
theorem c10_successor_closure_witness :
    ((0 : ℕ) ∈ c10pages ∧
      some 1 ∈ buildActions (crawl_links c10pages c10raw) c10tr 0) ∧
    ((∀ pr ∈ buildP (crawl_links c10pages c10raw) c10tr 0 (some 1),
        pr.1 ∈ c10pages) ∧
      akeys (buildR (crawl_links c10pages c10raw) c10tr 0 (some 1)) =
        akeys (buildP (crawl_links c10pages c10raw) c10tr 0 (some 1))) :=
  ⟨⟨by decide, by decide⟩,
    c10_successor_closure c10pages c10raw c10tr 0 (some 1) (by decide)
      (by decide)⟩

/-! ### Claim C6: first-wins tie-breaking -/

lemma bestQ_go (f : Option S → ℚ) :
    ∀ (as : List (Option S)) (m : ℚ) (b : Option S),
      (as.foldl (bestStep f) (some m, b)).1 = some (maxFold f m as) ∧
      ((maxFold f m as = m ∧ (as.foldl (bestStep f) (some m, b)).2 = b) ∨
        (m < maxFold f m as ∧
          as.find? (fun a => decide (f a = maxFold f m as)) =
            some (as.foldl (bestStep f) (some m, b)).2)) := by
  intro as
  induction as with
  | nil => exact fun m b => ⟨rfl, Or.inl ⟨rfl, rfl⟩⟩
  | cons a rest ih =>
    intro m b
    by_cases hlt : m < f a
    · have hstep : bestStep f (some m, b) a = (some (f a), a) := by
        simp [bestStep, hlt]
      have hmax : maxFold f m (a :: rest) = maxFold f (f a) rest := by
        simp [maxFold, max_eq_right hlt.le]
      rcases ih (f a) a with ⟨h1, h2⟩
      refine ⟨by rw [List.foldl_cons, hstep, h1, hmax], ?_⟩
      rcases h2 with ⟨he, hc⟩ | ⟨hgt, hf⟩
      · refine Or.inr ⟨by rw [hmax, he]; exact hlt, ?_⟩
        rw [List.foldl_cons, hstep, hmax, he, hc]
        exact List.find?_cons_of_pos _ (by simp)
      · refine Or.inr ⟨by rw [hmax]; exact hlt.trans hgt, ?_⟩
        have hne : f a ≠ maxFold f (f a) rest := ne_of_lt hgt
        rw [List.foldl_cons, hstep, hmax,
          List.find?_cons_of_neg _ (by simp [hne])]
        exact hf
    · have hstep : bestStep f (some m, b) a = (some m, b) := by
        simp [bestStep, hlt]
      have hge : f a ≤ m := le_of_not_lt hlt
      have hmax : maxFold f m (a :: rest) = maxFold f m rest := by
        simp [maxFold, max_eq_left hge]
      rcases ih m b with ⟨h1, h2⟩
      refine ⟨by rw [List.foldl_cons, hstep, h1, hmax], ?_⟩
      rcases h2 with ⟨he, hc⟩ | ⟨hgt, hf⟩
      · exact Or.inl ⟨by rw [hmax, he], by rw [List.foldl_cons, hstep, hc]⟩
      · refine Or.inr ⟨by rw [hmax]; exact hgt, ?_⟩
        have hne : f a ≠ maxFold f m rest := ne_of_lt (lt_of_le_of_lt hge hgt)
        rw [List.foldl_cons, hstep, hmax,
          List.find?_cons_of_neg _ (by simp [hne])]
        exact hf

lemma bestQ_cons (f : Option S → ℚ) (a₀ : Option S) (rest : List (Option S)) :
    bestQ f (a₀ :: rest) = rest.foldl (bestStep f) (some (f a₀), a₀) := rfl

lemma bestQ_max (f : Option S → ℚ) (a₀ : Option S) (rest : List (Option S)) :
    (bestQ f (a₀ :: rest)).1 = some (maxFold f (f a₀) rest) := by
  rw [bestQ_cons]
  exact (bestQ_go f rest (f a₀) a₀).1

lemma bestQ_first_argmax (f : Option S → ℚ) (a₀ : Option S)
    (rest : List (Option S)) :
    (a₀ :: rest).find? (fun a => decide (f a = maxFold f (f a₀) rest)) =
      some (bestQ f (a₀ :: rest)).2 := by
  rw [bestQ_cons]
  rcases (bestQ_go f rest (f a₀) a₀).2 with ⟨he, hc⟩ | ⟨hgt, hf⟩
  · rw [hc, he]
    exact List.find?_cons_of_pos _ (by simp)
  · have hne : f a₀ ≠ maxFold f (f a₀) rest := ne_of_lt hgt
    rw [List.find?_cons_of_neg _ (by simp [hne])]
    exact hf

/-- Claim C6: first-wins tie-breaking in both engines: for a non-empty action
list, the shared maximising fold returns the running maximum of the Q-values,
and the action it selects is exactly the *first* action of the list achieving
that maximum; the policy entries written by a value-iteration sweep step and
by a policy-improvement step for a non-terminal state are exactly that fold's
selection. -/
theorem c6_first_wins (f : Option S → ℚ) (a₀ : Option S)
    (rest : List (Option S)) (P R : S → Option S → List (S × ℚ))
    (actions : S → List (Option S)) (tr : S → Option ℚ) (γ : ℚ)
    (st : VIState S) (V : S → ℚ) (pol : S → Option S) (stb : Bool) (s : S)
    (htr : tr s = none) :
    (bestQ f (a₀ :: rest)).1 = some (maxFold f (f a₀) rest) ∧
    (a₀ :: rest).find? (fun a => decide (f a = maxFold f (f a₀) rest)) =
      some (bestQ f (a₀ :: rest)).2 ∧
    (viStep P R actions tr γ st s).policy s =
      (bestQ (qval P R γ st.V s) (actions s)).2 ∧
    (piImproveStep P R actions tr γ V (pol, stb) s).1 s =
      (bestQ (qval P R γ V s) (actions s)).2 := by
  refine ⟨bestQ_max f a₀ rest, bestQ_first_argmax f a₀ rest, ?_, ?_⟩
  · simp [viStep, htr]
  · simp [piImproveStep, htr]

/-- Witness for `c6_first_wins` on a concrete tie: the sentinel scores `1`,
the actions `some 0` and `some 1` both score `2`, and the fold picks
`some 0`, the first action achieving the maximum. -/
theorem c6_first_wins_witness :
    c3tr 0 = none ∧
    ((bestQ c6f [none, some 0, some 1]).2 = some 0 ∧
      List.find?
          (fun a => decide (c6f a = maxFold c6f (c6f none) [some 0, some 1]))
          [none, some 0, some 1] =
        some (bestQ c6f [none, some 0, some 1]).2) := by
  refine ⟨rfl, ?_, ?_⟩
  · norm_num [bestQ, bestStep, c6f]
  · exact (c6_first_wins c6f none [some 0, some 1] c3P c3R c3actions c3tr 1
      ⟨fun _ => 0, fun _ => none, 0⟩ (fun _ => 0) (fun _ => none) true 0
      rfl).2.1

/-! ### Claim C1: the sweep updates in place (Gauss–Seidel, not Jacobi) -/

/-- Claim C1, counterexample: on the order `[1, 0]` (page `1` terminal with
reward `10`, page `0` linking only to page `1`, `γ = 1/2`) the source's first
sweep assigns `V(0) = 89/20 = 4.45`: page `0`'s backup read the value `10`
pinned for page `1` *earlier in the same sweep*.  A synchronous (Jacobi)
sweep computed from the previous sweep's `V` (all zeros) would assign
`V(0) = -1/20 = -0.05`.  So not every read of `V` during a sweep takes the
previous sweep's value. -/
theorem c1_counterexample :
    (viSweep c1pages (buildP c4links c4tr) (buildR c4links c4tr)
        (buildActions c4links c4tr) c4tr (1/2) (fun _ => 0)
        (fun _ => none)).V 0 = 89/20 ∧
    viSweepSyncSpec c1pages (buildP c4links c4tr) (buildR c4links c4tr)
        (buildActions c4links c4tr) c4tr (1/2) (fun _ => 0) 0 = -(1/20) ∧
    (89/20 : ℚ) ≠ -(1/20) := by
  refine ⟨?_, ?_, by norm_num⟩
  · norm_num [viSweep, viStep, bestQ, bestStep, qval, buildP, buildR,
      buildActions, alookup, c1pages, c4links, c4tr, dinsert, ACTION_PENALTY,
      Function.update_apply]
  · norm_num [viSweepSyncSpec, bestQ, bestStep, qval, buildP, buildR,
      buildActions, alookup, c1pages, c4links, c4tr, dinsert, ACTION_PENALTY]

/-- Claim C1, amended: sweeps update `V` in place (Gauss–Seidel): the value a
sweep assigns to a non-terminal state `s` is the best backed-up value computed
from the *partially updated* array — the array obtained after processing the
states before `s` in the sweep order — not from the array as it stood at the
end of the previous sweep.  (Reads of states that come later in the order do
still see previous-sweep values.) -/
theorem c1_inplace_sweep (pages : List S)
    (P R : S → Option S → List (S × ℚ)) (actions : S → List (Option S))
    (tr : S → Option ℚ) (γ : ℚ) (xs ys : List S) (s : S)
    (hsplit : pages = xs ++ s :: ys) (hs : s ∉ ys) (htr : tr s = none)
    (V : S → ℚ) (policy : S → Option S) :
    (viSweep pages P R actions tr γ V policy).V s =
      (bestQ (qval P R γ
          (List.foldl (viStep P R actions tr γ) ⟨V, policy, 0⟩ xs).V s)
        (actions s)).1.getD 0 := by
  subst hsplit
  unfold viSweep
  rw [List.foldl_append, List.foldl_cons,
    (fold_no_write P R actions tr ys _ s hs).1]
  simp [viStep, htr]

/-- Witness for `c1_inplace_sweep` at the C1 instance (`xs = [1]`, `s = 0`):
the value the sweep assigns to page `0` is the best backup computed from the
array in which page `1` has already been pinned. -/
theorem c1_inplace_sweep_witness :
    (c1pages = [1] ++ 0 :: ([] : List ℕ) ∧ (0 : ℕ) ∉ ([] : List ℕ) ∧
      c4tr 0 = none) ∧
    (viSweep c1pages (buildP c4links c4tr) (buildR c4links c4tr)
        (buildActions c4links c4tr) c4tr (1/2) (fun _ => 0)
        (fun _ => none)).V 0 =
      (bestQ (qval (buildP c4links c4tr) (buildR c4links c4tr) (1/2)
          (List.foldl
            (viStep (buildP c4links c4tr) (buildR c4links c4tr)
              (buildActions c4links c4tr) c4tr (1/2))
            ⟨fun _ => 0, fun _ => none, 0⟩ [1]).V 0)
        (buildActions c4links c4tr 0)).1.getD 0 :=
  ⟨⟨rfl, by decide, rfl⟩,
    c1_inplace_sweep c1pages (buildP c4links c4tr) (buildR c4links c4tr)
      (buildActions c4links c4tr) c4tr (1/2) [1] [] 0 rfl (by decide) rfl
      (fun _ => 0) (fun _ => none)⟩

/-! ### Claim C3: no iteration cap, no divergence error -/

lemma c3_sweep_delta (V : ℕ → ℚ) (policy : ℕ → Option ℕ) :
    (viSweep c3pages c3P c3R c3actions c3tr 1 V policy).delta = 1 := by
  have hq : qval c3P c3R 1 V 0 (some 0) = 1 + V 0 := by
    simp [qval, c3P, c3R, alookup]
  have habs : |V 0 - (1 + V 0)| = 1 := by
    rw [show V 0 - (1 + V 0) = -1 by ring]
    norm_num
  simp [viSweep, viStep, c3pages, c3tr, c3actions, bestQ, bestStep, hq, habs]

lemma c3_loop_none : ∀ (fuel : ℕ) (V : ℕ → ℚ) (policy : ℕ → Option ℕ),
    viLoop c3pages c3P c3R c3actions c3tr 1 THRESHOLD fuel V policy = none := by
  intro fuel
  induction fuel with
  | zero => intro V p; rfl
  | succ n ih =>
    intro V p
    rw [viLoop]
    have hδ : ¬ ((viSweep c3pages c3P c3R c3actions c3tr 1 V p).delta
        < THRESHOLD) := by
      rw [c3_sweep_delta]
      norm_num [THRESHOLD]
    simp only [hδ, if_false]
    exact ih _ _

/-- Claim C3, counterexample: on a non-contracting input (`γ = 1`, a self-loop
of reward `1`, run with the default `θ`), `value_iteration` never signals
anything and never returns, at any sweep bound: the source loop is
`while True:` with no caller-supplied cap, no `DivergenceError`, and no other
exit.  This refutes the claim that a safety cap is enforced and a divergence
error raised. -/
theorem c3_counterexample :
    viNeverReturns c3pages c3P c3R c3actions c3tr 1 THRESHOLD :=
  fun fuel => c3_loop_none fuel _ _

/-- Claim C3, amended: value_iteration accepts no caller-supplied iteration
cap and raises no error of any kind: its signature has no cap parameter and
its body no `raise`.  On an input whose sweeps never bring `Δ` below `θ`
(here `γ = 1`), the loop simply never exits — from any intermediate state and
for any number of sweeps. -/
theorem c3_no_cap_loops_forever (fuel : ℕ) (V : ℕ → ℚ)
    (policy : ℕ → Option ℕ) :
    viLoop c3pages c3P c3R c3actions c3tr 1 THRESHOLD fuel V policy = none :=
  c3_loop_none fuel V policy

/-! ### Claim C9: non-terminal states with an empty action list -/

lemma viStepF_V_ne {γ : ℚ} {st : VIStateF S} {s u : S} (hne : u ≠ s) :
    (viStepF P R actions tr γ st s).V u = st.V u := by
  rcases h : tr s with _ | r <;>
    simp [viStepF, h, Function.update_noteq hne]

lemma viStepF_policy_ne {γ : ℚ} {st : VIStateF S} {s u : S} (hne : u ≠ s) :
    (viStepF P R actions tr γ st s).policy u = st.policy u := by
  rcases h : tr s with _ | r <;>
    simp [viStepF, h, Function.update_noteq hne]

lemma viStepF_empty {γ : ℚ} {s : S} (htr : tr s = none)
    (hact : actions s = []) (st : VIStateF S) :
    (viStepF P R actions tr γ st s).V s = Fl.ninf ∧
    (viStepF P R actions tr γ st s).policy s = none := by
  simp [viStepF, htr, hact]

lemma viSweepF_empty {γ : ℚ} (pages : List S) {s : S} (hmem : s ∈ pages)
    (htr : tr s = none) (hact : actions s = []) (V : S → Fl)
    (policy : S → Option S) :
    (viSweepF pages P R actions tr γ V policy).V s = Fl.ninf ∧
    (viSweepF pages P R actions tr γ V policy).policy s = none := by
  refine foldl_establish _
    (fun st : VIStateF S => st.V s = Fl.ninf ∧ st.policy s = none) pages s hmem
    (fun st => viStepF_empty P R actions tr htr hact st) ?_ _
  intro st a _ h
  by_cases has : s = a
  · subst has; exact viStepF_empty P R actions tr htr hact st
  · exact ⟨(viStepF_V_ne P R actions tr has).trans h.1,
      (viStepF_policy_ne P R actions tr has).trans h.2⟩

lemma viLoopF_empty {γ θ : ℚ} (pages : List S) {s : S} (hmem : s ∈ pages)
    (htr : tr s = none) (hact : actions s = []) :
    ∀ (fuel : ℕ) (V : S → Fl) (policy : S → Option S)
      (res : (S → Fl) × (S → Option S)),
      viLoopF pages P R actions tr γ θ fuel V policy = some res →
      res.1 s = Fl.ninf ∧ res.2 s = none := by
  intro fuel
  induction fuel with
  | zero => intro V p res h; cases h
  | succ n ih =>
    intro V p res h
    rw [viLoopF] at h
    by_cases hδ : Fl.flt (viSweepF pages P R actions tr γ V p).delta
        (Fl.num θ) = true
    · simp only [hδ, if_true] at h
      cases h
      exact viSweepF_empty P R actions tr pages hmem htr hact V p
    · simp only [hδ, if_false] at h
      exact ih _ _ _ h

/-- Claim C9, amended: for a non-terminal state `s` with an empty action list
(violating the input contract), `value_iteration` raises no error: every
sweep completes, assigning `V(s) = -inf` (the unbeaten `float('-inf')`
initialiser of the maximising fold) and `π(s) = None`; whenever the solver
returns, the returned pair has `V(s) = -inf` and `π(s) = None`.  (It does
*not* return for every such input — see `c9_counterexample`.) -/
theorem c9_empty_actions (pages : List S)
    (P R : S → Option S → List (S × ℚ)) (actions : S → List (Option S))
    (tr : S → Option ℚ) (γ θ : ℚ) (s : S) (hmem : s ∈ pages)
    (htr : tr s = none) (hact : actions s = []) :
    (∀ V policy, (viSweepF pages P R actions tr γ V policy).V s = Fl.ninf ∧
        (viSweepF pages P R actions tr γ V policy).policy s = none) ∧
    (∀ fuel res, value_iterationF pages P R actions tr γ θ fuel = some res →
        res.1 s = Fl.ninf ∧ res.2 s = none) :=
  ⟨fun V policy => viSweepF_empty P R actions tr pages hmem htr hact V policy,
    fun fuel res h =>
      viLoopF_empty P R actions tr pages hmem htr hact fuel _ _ res h⟩

/-- Witness for `c9_empty_actions`: on the single dead contract-violating
page the run returns after two sweeps (the first sweep records
`Δ = |0 - -inf| = inf`; in the second, `|-inf - -inf| = nan` loses against
`delta = 0` in Python's `max`, so `Δ = 0 < θ`), with `V(0) = -inf` and
`π(0) = None`. -/
theorem c9_empty_actions_witness :
    ((0 : ℕ) ∈ c9wpages ∧ c9tr 0 = none ∧ c9wactions 0 = []) ∧
    ((value_iterationF c9wpages c9wP c9wP c9wactions c9tr (1/2) (1/1000)
        2).map (fun res => (res.1 0, res.2 0))) = some (Fl.ninf, none) := by
  refine ⟨⟨by decide, rfl, rfl⟩, ?_⟩
  have hs : (value_iterationF c9wpages c9wP c9wP c9wactions c9tr (1/2)
      (1/1000) 2).isSome = true := by
    norm_num [value_iterationF, viLoopF, viSweepF, viStepF, c9wpages, c9wP,
      c9wactions, c9tr, Fl.sub, Fl.neg, Fl.add, Fl.fabs, Fl.pymax, Fl.flt]
  rcases hres : value_iterationF c9wpages c9wP c9wP c9wactions c9tr (1/2)
      (1/1000) 2 with _ | res
  · rw [hres] at hs; cases hs
  · have h := (c9_empty_actions c9wpages c9wP c9wP c9wactions c9tr (1/2)
      (1/1000) 0 (by decide) rfl rfl).2 2 res hres
    simp [h.1, h.2]

lemma c9_sweep (V : ℕ → Fl) (p : ℕ → Option ℕ) (b : ℚ)
    (h0 : V 0 = Fl.ninf) (h1 : V 1 = Fl.num b) :
    (viSweepF c9pages c9P c9R c9actions c9tr 1 V p).delta = Fl.num 1 ∧
    (viSweepF c9pages c9P c9R c9actions c9tr 1 V p).V 0 = Fl.ninf ∧
    (viSweepF c9pages c9P c9R c9actions c9tr 1 V p).V 1 = Fl.num (1 + b) := by
  have hr : (0 : ℚ) + 1 * (1 + 1 * b) = 1 + b := by ring
  have habs : |b - (1 + b)| = (1 : ℚ) := by
    rw [show b - (1 + b) = -1 by ring]
    norm_num
  norm_num [viSweepF, viStepF, qvalF, c9pages, c9P, c9R, c9actions, c9tr,
    alookup, h0, h1, Fl.sub, Fl.neg, Fl.add, Fl.mul, Fl.fabs, Fl.pymax,
    Fl.flt, Function.update_apply, hr, habs]

lemma c9_loop_steady :
    ∀ (fuel : ℕ) (V : ℕ → Fl) (p : ℕ → Option ℕ) (b : ℚ),
      V 0 = Fl.ninf → V 1 = Fl.num b →
      viLoopF c9pages c9P c9R c9actions c9tr 1 THRESHOLD fuel V p = none := by
  intro fuel
  induction fuel with
  | zero => intro V p b _ _; rfl
  | succ n ih =>
    intro V p b h0 h1
    rcases c9_sweep V p b h0 h1 with ⟨hd, hv0, hv1⟩
    rw [viLoopF]
    have hflt : Fl.flt (viSweepF c9pages c9P c9R c9actions c9tr 1 V p).delta
        (Fl.num THRESHOLD) = false := by
      rw [hd]
      norm_num [Fl.flt, THRESHOLD]
    simp only [hflt, Bool.false_eq_true, if_false]
    exact ih _ _ (1 + b) hv0 hv1

lemma c9_first_sweep :
    (viSweepF c9pages c9P c9R c9actions c9tr 1 (fun _ => Fl.num 0)
        (fun _ => none)).delta = Fl.inf ∧
    (viSweepF c9pages c9P c9R c9actions c9tr 1 (fun _ => Fl.num 0)
        (fun _ => none)).V 0 = Fl.ninf ∧
    (viSweepF c9pages c9P c9R c9actions c9tr 1 (fun _ => Fl.num 0)
        (fun _ => none)).V 1 = Fl.num 1 := by
  norm_num [viSweepF, viStepF, qvalF, c9pages, c9P, c9R, c9actions, c9tr,
    alookup, Fl.sub, Fl.neg, Fl.add, Fl.mul, Fl.fabs, Fl.pymax, Fl.flt,
    Function.update_apply]

/-- Claim C9, counterexample: the claim quantifies over *every* input with an
empty-action non-terminal state and asserts the solver returns.  Add a second,
non-contracting page (`γ = 1` self-loop of reward `1`) and the run never
returns at any sweep bound: after the first sweep `Δ = inf`, and every later
sweep has `Δ = 1 ≥ θ` (the `nan` from `|-inf - -inf|` loses in Python's
`max`, but page `1` keeps growing). -/
theorem c9_counterexample :
    viNeverReturnsF c9pages c9P c9R c9actions c9tr 1 THRESHOLD := by
  intro fuel
  cases fuel with
  | zero => rfl
  | succ n =>
    rw [value_iterationF, viLoopF]
    rcases c9_first_sweep with ⟨hd, h0, h1⟩
    have hflt : Fl.flt (viSweepF c9pages c9P c9R c9actions c9tr 1
        (fun _ => Fl.num 0) (fun _ => none)).delta (Fl.num THRESHOLD)
        = false := by
      rw [hd]; rfl
    simp only [hflt, Bool.false_eq_true, if_false]
    exact c9_loop_steady n _ _ 1 h0 h1

/-! ### Claim C7: termination for γ < 1 — arithmetic toolbox -/

lemma foldl_add_eq {α : Type*} (f : α → ℚ) :
    ∀ (l : List α) (c : ℚ),
      l.foldl (fun acc x => acc + f x) c = c + (l.map f).sum := by
  intro l
  induction l with
  | nil => intro c; simp
  | cons x xs ih =>
    intro c
    rw [List.foldl_cons, ih, List.map_cons, List.sum_cons, add_assoc]

lemma sum_map_sub {α : Type*} (f g : α → ℚ) :
    ∀ l : List α,
      (l.map f).sum - (l.map g).sum = (l.map (fun x => f x - g x)).sum := by
  intro l
  induction l with
  | nil => simp
  | cons x xs ih =>
    simp only [List.map_cons, List.sum_cons]
    rw [← ih]
    ring

lemma sum_abs_le {α : Type*} (f : α → ℚ) :
    ∀ l : List α, |(l.map f).sum| ≤ (l.map (fun x => |f x|)).sum := by
  intro l
  induction l with
  | nil => simp
  | cons x xs ih =>
    simp only [List.map_cons, List.sum_cons]
    exact (abs_add _ _).trans (by exact add_le_add_left ih _)

lemma sum_le_sum_of_le {α : Type*} (f g : α → ℚ) :
    ∀ l : List α, (∀ x ∈ l, f x ≤ g x) → (l.map f).sum ≤ (l.map g).sum := by
  intro l
  induction l with
  | nil => intro _; simp
  | cons x xs ih =>
    intro h
    simp only [List.map_cons, List.sum_cons]
    exact add_le_add (h x (List.mem_cons_self _ _))
      (ih fun y hy => h y (List.mem_cons_of_mem _ hy))

lemma sum_mul_psum (c : ℚ) :
    ∀ l : List (S × ℚ), (l.map (fun pr => pr.2 * c)).sum = psum l * c := by
  intro l
  induction l with
  | nil => simp [psum]
  | cons x xs ih =>
    simp only [List.map_cons, List.sum_cons, ih, psum]
    ring

lemma qval_eq_sum {γ : ℚ} (V : S → ℚ) (s : S) (a : Option S) :
    qval P R γ V s a =
      ((P s a).map
        (fun pr => pr.2 * ((alookup pr.1 (R s a)).getD 0 + γ * V pr.1))).sum := by
  unfold qval
  rw [foldl_add_eq]
  simp

lemma qval_lipschitz (pages : List S) {γ : ℚ} (hγ : 0 ≤ γ) (V W : S → ℚ)
    (s : S) (a : Option S) (B : ℚ)
    (hsum : psum (P s a) = 1)
    (hpr : ∀ pr ∈ P s a, 0 ≤ pr.2 ∧ pr.1 ∈ pages)
    (hVW : ∀ u ∈ pages, |V u - W u| ≤ B) :
    |qval P R γ V s a - qval P R γ W s a| ≤ γ * B := by
  rw [qval_eq_sum, qval_eq_sum, sum_map_sub]
  have hpt : (P s a).map
      (fun pr => pr.2 * ((alookup pr.1 (R s a)).getD 0 + γ * V pr.1) -
        pr.2 * ((alookup pr.1 (R s a)).getD 0 + γ * W pr.1)) =
      (P s a).map (fun pr => pr.2 * (γ * (V pr.1 - W pr.1))) := by
    apply List.map_congr_left
    intro pr _
    ring
  rw [hpt]
  refine (sum_abs_le _ _).trans ?_
  have hle : ∀ pr ∈ P s a,
      |pr.2 * (γ * (V pr.1 - W pr.1))| ≤ pr.2 * (γ * B) := by
    intro pr hm
    rcases hpr pr hm with ⟨hp0, hppg⟩
    rw [abs_mul, abs_mul, abs_of_nonneg hp0, abs_of_nonneg hγ]
    exact mul_le_mul_of_nonneg_left
      (mul_le_mul_of_nonneg_left (hVW pr.1 hppg) hγ) hp0
  refine (sum_le_sum_of_le _ _ _ hle).trans ?_
  rw [sum_mul_psum, hsum, one_mul]

lemma maxFold_cons (f : Option S → ℚ) (m : ℚ) (a : Option S)
    (rest : List (Option S)) :
    maxFold f m (a :: rest) = maxFold f (max m (f a)) rest := rfl

lemma maxFold_lipschitz (f g : Option S → ℚ) (B : ℚ) :
    ∀ (as : List (Option S)) (m₁ m₂ : ℚ), |m₁ - m₂| ≤ B →
      (∀ a ∈ as, |f a - g a| ≤ B) →
      |maxFold f m₁ as - maxFold g m₂ as| ≤ B := by
  intro as
  induction as with
  | nil => intro m₁ m₂ h _; exact h
  | cons a rest ih =>
    intro m₁ m₂ hm hp
    rw [maxFold_cons, maxFold_cons]
    refine ih _ _ ?_ (fun x hx => hp x (List.mem_cons_of_mem _ hx))
    exact (abs_max_sub_max_le_max _ _ _ _).trans
      (max_le hm (hp a (List.mem_cons_self _ _)))

lemma viStep_V_self {γ : ℚ} (st : VIState S) (s : S) (htr : tr s = none) :
    (viStep P R actions tr γ st s).V s =
      (bestQ (qval P R γ st.V s) (actions s)).1.getD 0 := by
  simp [viStep, htr]

lemma viStep_delta_self {γ : ℚ} (st : VIState S) (s : S) (htr : tr s = none) :
    (viStep P R actions tr γ st s).delta =
      max st.delta |st.V s - (viStep P R actions tr γ st s).V s| := by
  simp [viStep, htr]

lemma step_value_lipschitz (pages : List S) {γ : ℚ} (hγ : 0 ≤ γ)
    (st₁ st₂ : VIState S) (s : S) (htr : tr s = none)
    (hne : actions s ≠ []) (B : ℚ)
    (hWFs : ∀ a ∈ actions s,
      psum (P s a) = 1 ∧ ∀ pr ∈ P s a, 0 ≤ pr.2 ∧ pr.1 ∈ pages)
    (hV : ∀ u ∈ pages, |st₂.V u - st₁.V u| ≤ B) :
    |(viStep P R actions tr γ st₂ s).V s -
      (viStep P R actions tr γ st₁ s).V s| ≤ γ * B := by
  rcases List.exists_cons_of_ne_nil hne with ⟨a₀, rest, hact⟩
  rw [viStep_V_self P R actions tr st₂ s htr,
    viStep_V_self P R actions tr st₁ s htr, hact, bestQ_max, bestQ_max,
    Option.getD_some, Option.getD_some]
  have hq : ∀ a ∈ actions s,
      |qval P R γ st₂.V s a - qval P R γ st₁.V s a| ≤ γ * B := by
    intro a ha
    rcases hWFs a ha with ⟨hsum, hpr⟩
    exact qval_lipschitz P R pages hγ st₂.V st₁.V s a B hsum hpr hV
  refine maxFold_lipschitz _ _ _ rest _ _
    (hq a₀ (hact ▸ List.mem_cons_self _ _)) ?_
  intro a ha
  exact hq a (hact ▸ List.mem_cons_of_mem _ ha)

/-! ### Claim C7: sweep contraction -/

lemma sweep_diff_le {γ : ℚ} :
    ∀ (l : List S) (st : VIState S) (u : S), l.Nodup → u ∈ l →
      tr u = none →
      |(l.foldl (viStep P R actions tr γ) st).V u - st.V u| ≤
        (l.foldl (viStep P R actions tr γ) st).delta := by
  intro l
  induction l with
  | nil => intro st u _ hu; cases hu
  | cons h rest ih =>
    intro st u hnd hu htr
    rcases List.mem_cons.1 hu with rfl | hu'
    · have hnotin : u ∉ rest := (List.nodup_cons.1 hnd).1
      rw [List.foldl_cons,
        (fold_no_write P R actions tr rest _ u hnotin).1]
      have h1 : |(viStep P R actions tr γ st u).V u - st.V u| ≤
          (viStep P R actions tr γ st u).delta := by
        rw [viStep_delta_self P R actions tr st u htr, abs_sub_comm]
        exact le_max_right _ _
      exact h1.trans (fold_delta_le P R actions tr rest _)
    · have hne : u ≠ h := fun he => (List.nodup_cons.1 hnd).1 (he ▸ hu')
      have hloc : (viStep P R actions tr γ st h).V u = st.V u :=
        viStep_V_ne P R actions tr hne
      rw [List.foldl_cons]
      have := ih (viStep P R actions tr γ st h) u (List.nodup_cons.1 hnd).2
        hu' htr
      rwa [hloc] at this

lemma contract_aux (pages : List S) {γ : ℚ} (hγ0 : 0 ≤ γ) (hγ1 : γ ≤ 1)
    (δ₁ : ℚ) (hδ₁ : 0 ≤ δ₁)
    (hWF2 : ∀ s ∈ pages, tr s = none → actions s ≠ [])
    (hWF3 : ∀ s ∈ pages, ∀ a ∈ actions s,
      psum (P s a) = 1 ∧ ∀ pr ∈ P s a, 0 ≤ pr.2 ∧ pr.1 ∈ pages) :
    ∀ (l : List S) (st₁ st₂ : VIState S),
      l.Nodup → (∀ t ∈ l, t ∈ pages) →
      (∀ u ∈ pages, |st₂.V u - st₁.V u| ≤ δ₁) →
      (∀ t ∈ l, st₂.V t = (l.foldl (viStep P R actions tr γ) st₁).V t) →
      st₂.delta ≤ γ * δ₁ →
      (∀ u ∈ pages, |(l.foldl (viStep P R actions tr γ) st₂).V u -
          (l.foldl (viStep P R actions tr γ) st₁).V u| ≤ δ₁) ∧
      (l.foldl (viStep P R actions tr γ) st₂).delta ≤ γ * δ₁ := by
  intro l
  induction l with
  | nil => intro st₁ st₂ _ _ hV _ hδ; exact ⟨hV, hδ⟩
  | cons h rest ih =>
    intro st₁ st₂ hnd hsub hV hfin hδ
    have hhmem : h ∈ pages := hsub h (List.mem_cons_self _ _)
    have hhnotin : h ∉ rest := (List.nodup_cons.1 hnd).1
    have hndr : rest.Nodup := (List.nodup_cons.1 hnd).2
    have hkey : st₂.V h = (viStep P R actions tr γ st₁ h).V h := by
      have hfh := hfin h (List.mem_cons_self _ _)
      rw [List.foldl_cons,
        (fold_no_write P R actions tr rest _ h hhnotin).1] at hfh
      exact hfh
    have hdiff : |(viStep P R actions tr γ st₂ h).V h -
        (viStep P R actions tr γ st₁ h).V h| ≤ γ * δ₁ := by
      rcases htr : tr h with _ | r
      · exact step_value_lipschitz P R actions tr pages hγ0 st₁ st₂ h htr
          (hWF2 h hhmem htr) δ₁ (hWF3 h hhmem) hV
      · rw [(viStep_pin P R actions tr htr st₂).1,
          (viStep_pin P R actions tr htr st₁).1]
        simpa using mul_nonneg hγ0 hδ₁
    have hV' : ∀ u ∈ pages,
        |(viStep P R actions tr γ st₂ h).V u -
          (viStep P R actions tr γ st₁ h).V u| ≤ δ₁ := by
      intro u hu
      by_cases hus : u = h
      · subst hus
        exact hdiff.trans (mul_le_of_le_one_left hδ₁ hγ1)
      · rw [viStep_V_ne P R actions tr hus, viStep_V_ne P R actions tr hus]
        exact hV u hu
    have hδ' : (viStep P R actions tr γ st₂ h).delta ≤ γ * δ₁ := by
      rcases htr : tr h with _ | r
      · rw [viStep_delta_self P R actions tr st₂ h htr]
        refine max_le hδ ?_
        rw [hkey, abs_sub_comm]
        exact hdiff
      · have : (viStep P R actions tr γ st₂ h).delta = st₂.delta := by
          simp [viStep, htr]
        rw [this]
        exact hδ
    have hfin' : ∀ t ∈ rest,
        (viStep P R actions tr γ st₂ h).V t =
          (rest.foldl (viStep P R actions tr γ)
            (viStep P R actions tr γ st₁ h)).V t := by
      intro t ht
      have htne : t ≠ h := fun he => hhnotin (he ▸ ht)
      rw [viStep_V_ne P R actions tr htne]
      have := hfin t (List.mem_cons_of_mem _ ht)
      rwa [List.foldl_cons] at this
    rw [List.foldl_cons, List.foldl_cons]
    exact ih _ _ hndr (fun t ht => hsub t (List.mem_cons_of_mem _ ht))
      hV' hfin' hδ'

lemma viSweep_eq_foldl {γ : ℚ} (pages : List S) (V : S → ℚ)
    (policy : S → Option S) :
    viSweep pages P R actions tr γ V policy =
      pages.foldl (viStep P R actions tr γ) ⟨V, policy, 0⟩ := rfl

lemma sweep_contract (pages : List S) {γ : ℚ} (hγ0 : 0 ≤ γ) (hγ1 : γ ≤ 1)
    (hnd : pages.Nodup)
    (hWF2 : ∀ s ∈ pages, tr s = none → actions s ≠ [])
    (hWF3 : ∀ s ∈ pages, ∀ a ∈ actions s,
      psum (P s a) = 1 ∧ ∀ pr ∈ P s a, 0 ≤ pr.2 ∧ pr.1 ∈ pages)
    (V₀ : S → ℚ) (π₀ : S → Option S)
    (hpin : ∀ s ∈ pages, ∀ r, tr s = some r → V₀ s = r) :
    (viSweep pages P R actions tr γ
        (viSweep pages P R actions tr γ V₀ π₀).V
        (viSweep pages P R actions tr γ V₀ π₀).policy).delta ≤
      γ * (viSweep pages P R actions tr γ V₀ π₀).delta := by
  have hδ₁0 : 0 ≤ (viSweep pages P R actions tr γ V₀ π₀).delta :=
    fold_delta_nonneg P R actions tr pages V₀ π₀
  have hbase : ∀ u ∈ pages,
      |(viSweep pages P R actions tr γ V₀ π₀).V u - V₀ u| ≤
        (viSweep pages P R actions tr γ V₀ π₀).delta := by
    intro u hu
    rcases htr : tr u with _ | r
    · exact sweep_diff_le P R actions tr pages _ u hnd hu htr
    · rw [(viSweep_pin P R actions tr pages hu htr V₀ π₀).1,
        hpin u hu r htr]
      simpa using hδ₁0
  have haux := contract_aux P R actions tr pages hγ0 hγ1
    (viSweep pages P R actions tr γ V₀ π₀).delta hδ₁0 hWF2 hWF3 pages
    ⟨V₀, π₀, 0⟩
    ⟨(viSweep pages P R actions tr γ V₀ π₀).V,
      (viSweep pages P R actions tr γ V₀ π₀).policy, 0⟩
    hnd (fun t ht => ht) (fun u hu => hbase u hu) (fun t _ => rfl)
    (by simpa using mul_nonneg hγ0 hδ₁0)
  exact haux.2

/-! ### Claim C7: geometric decay of the sweep deltas and termination -/

lemma viTraj_pin_succ (pages : List S) {γ : ℚ} (n : ℕ) :
    ∀ s ∈ pages, ∀ r, tr s = some r →
      (viTraj pages P R actions tr γ (n + 1)).V s = r := by
  intro s hs r htr
  exact (viSweep_pin P R actions tr pages hs htr _ _).1

lemma traj_contract (pages : List S) {γ : ℚ} (hγ0 : 0 ≤ γ) (hγ1 : γ ≤ 1)
    (hnd : pages.Nodup)
    (hWF2 : ∀ s ∈ pages, tr s = none → actions s ≠ [])
    (hWF3 : ∀ s ∈ pages, ∀ a ∈ actions s,
      psum (P s a) = 1 ∧ ∀ pr ∈ P s a, 0 ≤ pr.2 ∧ pr.1 ∈ pages) (n : ℕ) :
    (viTraj pages P R actions tr γ (n + 3)).delta ≤
      γ * (viTraj pages P R actions tr γ (n + 2)).delta :=
  sweep_contract P R actions tr pages hγ0 hγ1 hnd hWF2 hWF3
    (viTraj pages P R actions tr γ (n + 1)).V
    (viTraj pages P R actions tr γ (n + 1)).policy
    (fun s hs r htr => viTraj_pin_succ P R actions tr pages n s hs r htr)

lemma traj_pow (pages : List S) {γ : ℚ} (hγ0 : 0 ≤ γ) (hγ1 : γ ≤ 1)
    (hnd : pages.Nodup)
    (hWF2 : ∀ s ∈ pages, tr s = none → actions s ≠ [])
    (hWF3 : ∀ s ∈ pages, ∀ a ∈ actions s,
      psum (P s a) = 1 ∧ ∀ pr ∈ P s a, 0 ≤ pr.2 ∧ pr.1 ∈ pages) (k : ℕ) :
    (viTraj pages P R actions tr γ (k + 2)).delta ≤
      γ ^ k * (viTraj pages P R actions tr γ 2).delta := by
  induction k with
  | zero => simp
  | succ m ih =>
    show (viTraj pages P R actions tr γ (m + 3)).delta ≤ _
    calc (viTraj pages P R actions tr γ (m + 3)).delta
        ≤ γ * (viTraj pages P R actions tr γ (m + 2)).delta :=
          traj_contract P R actions tr pages hγ0 hγ1 hnd hWF2 hWF3 m
      _ ≤ γ * (γ ^ m * (viTraj pages P R actions tr γ 2).delta) :=
          mul_le_mul_of_nonneg_left ih hγ0
      _ = γ ^ (m + 1) * (viTraj pages P R actions tr γ 2).delta := by ring

lemma viLoop_exits (pages : List S) {γ θ : ℚ} :
    ∀ (fuel k : ℕ),
      (∃ m, k < m ∧ m ≤ k + fuel ∧
        (viTraj pages P R actions tr γ m).delta < θ) →
      ∃ res, viLoop pages P R actions tr γ θ fuel
          (viTraj pages P R actions tr γ k).V
          (viTraj pages P R actions tr γ k).policy = some res := by
  intro fuel
  induction fuel with
  | zero =>
    rintro k ⟨m, h1, h2, _⟩
    omega
  | succ n ih =>
    rintro k ⟨m, hk, hm, hδ⟩
    rw [viLoop]
    by_cases hexit : (viSweep pages P R actions tr γ
        (viTraj pages P R actions tr γ k).V
        (viTraj pages P R actions tr γ k).policy).delta < θ
    · refine ⟨((viSweep pages P R actions tr γ
        (viTraj pages P R actions tr γ k).V
        (viTraj pages P R actions tr γ k).policy).V,
        (viSweep pages P R actions tr γ
          (viTraj pages P R actions tr γ k).V
          (viTraj pages P R actions tr γ k).policy).policy), ?_⟩
      simp only [hexit, if_true]
    · simp only [hexit, if_false]
      have hm1 : k + 1 < m := by
        rcases Nat.lt_or_ge (k + 1) m with h | h
        · exact h
        · exfalso
          have hmeq : m = k + 1 := le_antisymm h (Nat.succ_le_of_lt hk)
          exact hexit (show (viTraj pages P R actions tr γ (k + 1)).delta < θ
            from hmeq ▸ hδ)
      exact ih (k + 1) ⟨m, hm1, by omega, hδ⟩

lemma pow_small {γ θ C : ℚ} (hγ1 : γ < 1) (hθ : 0 < θ) (hC : 0 ≤ C) :
    ∃ k, γ ^ k * C < θ := by
  rcases eq_or_lt_of_le hC with hC0 | hCpos
  · refine ⟨0, ?_⟩
    rw [← hC0]
    simpa using hθ
  · obtain ⟨k, hk⟩ := exists_pow_lt_of_lt_one (div_pos hθ hCpos) hγ1
    exact ⟨k, (lt_div_iff hCpos).1 hk⟩

/-- Claim C7: on every well-formed MDP (duplicate-free pages, every
non-terminal state with at least one action, every transition row a
probability distribution over pages) with `0 ≤ γ < 1` and `θ > 0`,
`value_iteration` terminates: some sweep brings `Δ` below `θ`, and the loop
then returns a `(V, π)` pair.  (After the first sweep the terminal states are
pinned; from then on each sweep's `Δ` contracts by `γ`, even though the
sweeps update in place.) -/
theorem c7_terminates (pages : List S) (P R : S → Option S → List (S × ℚ))
    (actions : S → List (Option S)) (tr : S → Option ℚ) (γ θ : ℚ)
    (hWF : WFmdp pages P actions tr) (hγ0 : 0 ≤ γ) (hγ1 : γ < 1)
    (hθ : 0 < θ) :
    ∃ fuel res, value_iteration pages P R actions tr γ θ fuel = some res := by
  obtain ⟨hnd, hWF2, hWF3⟩ := hWF
  have hδ20 : 0 ≤ (viTraj pages P R actions tr γ 2).delta :=
    fold_delta_nonneg P R actions tr pages _ _
  obtain ⟨k, hk⟩ := pow_small hγ1 hθ hδ20
  have hδk : (viTraj pages P R actions tr γ (k + 2)).delta < θ :=
    lt_of_le_of_lt
      (traj_pow P R actions tr pages hγ0 hγ1.le hnd hWF2 hWF3 k) hk
  obtain ⟨res, hres⟩ := viLoop_exits P R actions tr pages (k + 2) 0
    ⟨k + 2, by omega, by omega, hδk⟩
  exact ⟨k + 2, res, hres⟩

/-- Witness for `c7_terminates`: the one-page self-loop MDP with `γ = 1/2`,
`θ = 1/1000` is well-formed, and the solver indeed returns. -/
theorem c7_terminates_witness :
    (WFmdp c7pages c7P c7actions c3tr ∧ (0 : ℚ) ≤ 1/2 ∧ (1/2 : ℚ) < 1 ∧
      (0 : ℚ) < 1/1000) ∧
    ∃ fuel res, value_iteration c7pages c7P c7R c7actions c3tr (1/2) (1/1000)
        fuel = some res := by
  have hWF : WFmdp c7pages c7P c7actions c3tr := by
    refine ⟨by decide, ?_, ?_⟩
    · intro s _ _
      simp [c7actions]
    · intro s _ a _
      refine ⟨by norm_num [psum, c7P], ?_⟩
      intro pr hpr
      rw [show c7P s a = [(0, 1)] from rfl] at hpr
      rcases List.mem_singleton.1 hpr with rfl
      exact ⟨by norm_num, by decide⟩
  exact ⟨⟨hWF, by norm_num, by norm_num, by norm_num⟩,
    c7_terminates c7pages c7P c7R c7actions c3tr (1/2) (1/1000) hWF
      (by norm_num) (by norm_num) (by norm_num)⟩

end WebCrawler
